import Mathlib

/-!
# Verification of the option-chain market-data engine

Shallow embedding of the core of the backend service:
* `GreeksCalculator` (Black-Scholes pricing and Greeks) over `ℝ`,
  with `scipy.stats.norm.cdf` modelled as the cdf of the standard
  Gaussian probability measure;
* the per-strike O/H/L/C merge of `get_option_chain` (first-positive
  source precedence) over `ℚ`;
* the session OHLC aggregator (`_update_session_ohlc`);
* the previous-day OHLC fetch loop (`get_previous_day_option_ohlc`)
  with its cache, rate-limit cooldown and per-token fetch log;
* `_calculate_max_pain`;
* the quote batching loop of `get_option_chain`;
* `_get_previous_trading_day`.

Network calls are modelled by outcome oracles; wall-clock time is an
explicit parameter.  Logging, sleeps and disk persistence are no-ops for
the values computed and are not modelled.
-/

namespace KiteService

/-- Option side, the `'CE'` / `'PE'` strings of the source. -/
inductive OptionType where
  | CE : OptionType
  | PE : OptionType
deriving DecidableEq

/-! ## GreeksCalculator (src/services/greeks_calculator.py)

`scipy.stats.norm.pdf` / `norm.cdf` are the standard normal density and
cumulative distribution function; we model them with the Gaussian
probability measure of Mathlib. -/

/-- Standard normal density (`scipy.stats.norm.pdf`). -/
noncomputable def normPdf (x : ℝ) : ℝ :=
  Real.exp (-(x ^ 2) / 2) / Real.sqrt (2 * Real.pi)

/-- Standard normal cumulative distribution (`scipy.stats.norm.cdf`),
modelled as the cdf of the standard Gaussian measure. -/
noncomputable def normCdf (x : ℝ) : ℝ :=
  ProbabilityTheory.cdf (ProbabilityTheory.gaussianReal 0 1) x

theorem normCdf_nonneg (x : ℝ) : 0 ≤ normCdf x :=
  ProbabilityTheory.cdf_nonneg _ x

theorem normCdf_le_one (x : ℝ) : normCdf x ≤ 1 :=
  ProbabilityTheory.cdf_le_one _ x

/-- `GreeksCalculator._d1`: returns 0 when any of S, K, T, sigma is
non-positive, else the Black-Scholes d1. -/
noncomputable def _d1 (S K T r sigma : ℝ) : ℝ :=
  if T ≤ 0 ∨ sigma ≤ 0 ∨ S ≤ 0 ∨ K ≤ 0 then 0
  else (Real.log (S / K) + (r + 0.5 * sigma ^ 2) * T) / (sigma * Real.sqrt T)

/-- `GreeksCalculator._d2`: same guard as `_d1`, else `d1 - sigma*sqrt T`. -/
noncomputable def _d2 (S K T r sigma : ℝ) : ℝ :=
  if T ≤ 0 ∨ sigma ≤ 0 ∨ S ≤ 0 ∨ K ≤ 0 then 0
  else _d1 S K T r sigma - sigma * Real.sqrt T

/-- `GreeksCalculator.black_scholes_call`. -/
noncomputable def black_scholes_call (S K T r sigma : ℝ) : ℝ :=
  if T ≤ 0 then max (S - K) 0
  else
    max (S * normCdf (_d1 S K T r sigma)
      - K * Real.exp (-(r * T)) * normCdf (_d2 S K T r sigma)) 0

/-- `GreeksCalculator.black_scholes_put`. -/
noncomputable def black_scholes_put (S K T r sigma : ℝ) : ℝ :=
  if T ≤ 0 then max (K - S) 0
  else
    max (K * Real.exp (-(r * T)) * normCdf (-(_d2 S K T r sigma))
      - S * normCdf (-(_d1 S K T r sigma))) 0

/-- `GreeksCalculator.calculate_delta`. -/
noncomputable def calculate_delta (S K T r sigma : ℝ) : OptionType → ℝ
  | OptionType.CE =>
      if T ≤ 0 then (if K < S then 1 else 0)
      else normCdf (_d1 S K T r sigma)
  | OptionType.PE =>
      if T ≤ 0 then (if S < K then -1 else 0)
      else normCdf (_d1 S K T r sigma) - 1

/-- `GreeksCalculator.calculate_gamma`. -/
noncomputable def calculate_gamma (S K T r sigma : ℝ) : ℝ :=
  if T ≤ 0 ∨ sigma ≤ 0 then 0
  else normPdf (_d1 S K T r sigma) / (S * sigma * Real.sqrt T)

/-- `GreeksCalculator.calculate_vega` (per 1% change). -/
noncomputable def calculate_vega (S K T r sigma : ℝ) : ℝ :=
  if T ≤ 0 then 0
  else S * normPdf (_d1 S K T r sigma) * Real.sqrt T / 100

/-- `GreeksCalculator.calculate_theta` (per calendar day). -/
noncomputable def calculate_theta (S K T r sigma : ℝ) : OptionType → ℝ
  | OptionType.CE =>
      if T ≤ 0 then 0
      else (-(S * normPdf (_d1 S K T r sigma) * sigma) / (2 * Real.sqrt T)
        - r * K * Real.exp (-(r * T)) * normCdf (_d2 S K T r sigma)) / 365
  | OptionType.PE =>
      if T ≤ 0 then 0
      else (-(S * normPdf (_d1 S K T r sigma) * sigma) / (2 * Real.sqrt T)
        + r * K * Real.exp (-(r * T)) * normCdf (-(_d2 S K T r sigma))) / 365

/-- `GreeksCalculator.calculate_rho` (per 1% change). -/
noncomputable def calculate_rho (S K T r sigma : ℝ) : OptionType → ℝ
  | OptionType.CE =>
      if T ≤ 0 then 0
      else K * T * Real.exp (-(r * T)) * normCdf (_d2 S K T r sigma) / 100
  | OptionType.PE =>
      if T ≤ 0 then 0
      else -(K * T * Real.exp (-(r * T)) * normCdf (-(_d2 S K T r sigma))) / 100

end KiteService

namespace KiteService

/-- C2 counterexample: with S=2, K=1, T=0, r=0, sigma=1 the input T is
non-positive (and S, K, sigma are positive), so the claim demands that
`calculate_delta` return 0; the code returns 1 (the exercise indicator
`S > K`). -/
theorem c2_counterexample_delta_at_expiry :
    calculate_delta 2 1 0 0 1 OptionType.CE = 1 ∧ (1 : ℝ) ≠ 0 := by
  constructor
  · show (if (0:ℝ) ≤ 0 then (if (1:ℝ) < 2 then (1:ℝ) else 0) else _) = 1
    norm_num
  · norm_num

/-- C2 (amended): only `_d1`/`_d2` return 0 whenever any of S, K, T, sigma
is non-positive.  At `T ≤ 0` the price formulas return intrinsic value and
`calculate_delta` returns the exercise indicator (1 for a call with S > K,
-1 for a put with S < K, else 0) while gamma/vega/theta/rho return 0.  For
`T > 0` with `sigma ≤ 0` the formulas evaluate the closed forms at
`d1 = d2 = 0` instead of returning 0: the call delta is `normCdf 0`, the
call price is `max ((S - K·e^(-rT))·normCdf 0) 0`, vega is
`S·normPdf 0·√T/100`; only gamma's own guard yields 0 there. -/
theorem c2_degenerate_input_behaviour (S K T r sigma : ℝ) :
    ((T ≤ 0 ∨ sigma ≤ 0 ∨ S ≤ 0 ∨ K ≤ 0) →
      _d1 S K T r sigma = 0 ∧ _d2 S K T r sigma = 0)
    ∧ (T ≤ 0 →
      black_scholes_call S K T r sigma = max (S - K) 0
      ∧ black_scholes_put S K T r sigma = max (K - S) 0
      ∧ calculate_delta S K T r sigma OptionType.CE = (if K < S then 1 else 0)
      ∧ calculate_delta S K T r sigma OptionType.PE = (if S < K then -1 else 0)
      ∧ calculate_gamma S K T r sigma = 0
      ∧ calculate_vega S K T r sigma = 0
      ∧ calculate_theta S K T r sigma OptionType.CE = 0
      ∧ calculate_rho S K T r sigma OptionType.CE = 0)
    ∧ (0 < T → sigma ≤ 0 →
      calculate_delta S K T r sigma OptionType.CE = normCdf 0
      ∧ calculate_delta S K T r sigma OptionType.PE = normCdf 0 - 1
      ∧ black_scholes_call S K T r sigma
          = max ((S - K * Real.exp (-(r * T))) * normCdf 0) 0
      ∧ calculate_gamma S K T r sigma = 0
      ∧ calculate_vega S K T r sigma = S * normPdf 0 * Real.sqrt T / 100) := by
  refine ⟨fun h => ?_, fun hT => ?_, fun hT hs => ?_⟩
  · constructor
    · simp only [_d1, if_pos h]
    · simp only [_d2, if_pos h]
  · refine ⟨?_, ?_, ?_, ?_, ?_, ?_, ?_, ?_⟩
    · simp only [black_scholes_call, if_pos hT]
    · simp only [black_scholes_put, if_pos hT]
    · simp only [calculate_delta, if_pos hT]
    · simp only [calculate_delta, if_pos hT]
    · simp only [calculate_gamma, if_pos (Or.inl hT)]
    · simp only [calculate_vega, if_pos hT]
    · simp only [calculate_theta, if_pos hT]
    · simp only [calculate_rho, if_pos hT]
  · have hT' : ¬ T ≤ 0 := not_le.2 hT
    have hguard : T ≤ 0 ∨ sigma ≤ 0 ∨ S ≤ 0 ∨ K ≤ 0 := Or.inr (Or.inl hs)
    have hd1 : _d1 S K T r sigma = 0 := by simp only [_d1, if_pos hguard]
    have hd2 : _d2 S K T r sigma = 0 := by simp only [_d2, if_pos hguard]
    refine ⟨?_, ?_, ?_, ?_, ?_⟩
    · simp only [calculate_delta, if_neg hT', hd1]
    · simp only [calculate_delta, if_neg hT', hd1]
    · simp only [black_scholes_call, if_neg hT', hd1, hd2]
      ring_nf
    · simp only [calculate_gamma, if_pos (Or.inr hs)]
    · simp only [calculate_vega, if_neg hT', hd1]

/-- C2 witness: the amended theorem applied at S=3, K=1, T=0, r=0,
sigma=1. -/
theorem c2_degenerate_input_behaviour_witness :
    black_scholes_call 3 1 0 0 1 = max (3 - 1) 0 :=
  ((c2_degenerate_input_behaviour 3 1 0 0 1).2.1 (by norm_num)).1

/-- C5: for S, K, T, sigma all positive (any r), the call delta lies in
[0, 1], the put delta lies in [-1, 0], and put delta = call delta - 1
exactly. -/
theorem c5_delta_bounds (S K T r sigma : ℝ)
    (hS : 0 < S) (hK : 0 < K) (hT : 0 < T) (hs : 0 < sigma) :
    (0 ≤ calculate_delta S K T r sigma OptionType.CE
      ∧ calculate_delta S K T r sigma OptionType.CE ≤ 1)
    ∧ (-1 ≤ calculate_delta S K T r sigma OptionType.PE
      ∧ calculate_delta S K T r sigma OptionType.PE ≤ 0)
    ∧ calculate_delta S K T r sigma OptionType.PE
        = calculate_delta S K T r sigma OptionType.CE - 1 := by
  have hT' : ¬ T ≤ 0 := not_le.2 hT
  have hCE : calculate_delta S K T r sigma OptionType.CE
      = normCdf (_d1 S K T r sigma) := by
    simp only [calculate_delta, if_neg hT']
  have hPE : calculate_delta S K T r sigma OptionType.PE
      = normCdf (_d1 S K T r sigma) - 1 := by
    simp only [calculate_delta, if_neg hT']
  refine ⟨⟨?_, ?_⟩, ⟨?_, ?_⟩, ?_⟩
  · rw [hCE]; exact normCdf_nonneg _
  · rw [hCE]; exact normCdf_le_one _
  · rw [hPE]; linarith [normCdf_nonneg (_d1 S K T r sigma)]
  · rw [hPE]; linarith [normCdf_le_one (_d1 S K T r sigma)]
  · rw [hPE, hCE]

/-- C5 witness: the delta bounds at S=K=T=sigma=1, r=0. -/
theorem c5_delta_bounds_witness :
    (0 ≤ calculate_delta 1 1 1 0 1 OptionType.CE
      ∧ calculate_delta 1 1 1 0 1 OptionType.CE ≤ 1)
    ∧ (-1 ≤ calculate_delta 1 1 1 0 1 OptionType.PE
      ∧ calculate_delta 1 1 1 0 1 OptionType.PE ≤ 0)
    ∧ calculate_delta 1 1 1 0 1 OptionType.PE
        = calculate_delta 1 1 1 0 1 OptionType.CE - 1 :=
  c5_delta_bounds 1 1 1 0 1 (by norm_num) (by norm_num) (by norm_num)
    (by norm_num)

end KiteService

namespace KiteService

/-! ## First-positive O/H/L/C merge (get_option_chain, per-strike rows)

`_first_positive(*vals)` returns the first argument that is a number
strictly greater than 0, else `None`.  A missing dict entry is `none`.
Prices are modelled as `ℚ`. -/

/-- `KiteAPIService._first_positive`. -/
def _first_positive : List (Option ℚ) → Option ℚ
  | [] => none
  | v :: rest =>
    match v with
    | some x => if 0 < x then some x else _first_positive rest
    | none => _first_positive rest

/-- An optional value that is present and strictly positive. -/
def isPosQ (v : Option ℚ) : Prop := ∃ x, v = some x ∧ 0 < x

instance (v : Option ℚ) : Decidable (isPosQ v) := by
  unfold isPosQ
  exact match v with
  | none => isFalse (by simp)
  | some x => if h : 0 < x then isTrue ⟨x, rfl, h⟩ else isFalse (by simp [h])

theorem first_positive_eq_none (l : List (Option ℚ)) :
    _first_positive l = none ↔ ∀ v ∈ l, ¬ isPosQ v := by
  induction l with
  | nil => simp [_first_positive]
  | cons v rest ih =>
    cases v with
    | none => simp [_first_positive, ih, isPosQ]
    | some x =>
      by_cases hx : 0 < x
      · simp only [_first_positive, if_pos hx]
        constructor
        · intro h; cases h
        · intro h
          exact absurd ⟨x, rfl, hx⟩ (h (some x) (List.mem_cons_self _ _))
      · simp only [_first_positive, if_neg hx, ih]
        constructor
        · intro h w hw
          rcases List.mem_cons.1 hw with hw | hw
          · subst hw
            rintro ⟨y, hy, hy0⟩
            cases hy
            exact hx hy0
          · exact h w hw
        · intro h w hw
          exact h w (List.mem_cons_of_mem _ hw)

theorem first_positive_eq_some (l : List (Option ℚ)) (x : ℚ) :
    _first_positive l = some x ↔
      0 < x ∧ ∃ l₁ l₂, l = l₁ ++ some x :: l₂ ∧ ∀ v ∈ l₁, ¬ isPosQ v := by
  induction l with
  | nil =>
    simp only [_first_positive]
    constructor
    · intro h; cases h
    · rintro ⟨-, l₁, l₂, h, -⟩
      exact absurd h (by simp)
  | cons v rest ih =>
    constructor
    · intro h
      cases v with
      | none =>
        have h' := (ih.1 (by simpa [_first_positive] using h))
        rcases h' with ⟨hx, l₁, l₂, rfl, hl₁⟩
        refine ⟨hx, none :: l₁, l₂, rfl, ?_⟩
        intro w hw
        rcases List.mem_cons.1 hw with hw | hw
        · subst hw; rintro ⟨y, hy, -⟩; cases hy
        · exact hl₁ w hw
      | some y =>
        by_cases hy : 0 < y
        · simp only [_first_positive, if_pos hy] at h
          cases h
          exact ⟨hy, [], rest, rfl, by simp⟩
        · simp only [_first_positive, if_neg hy] at h
          rcases ih.1 h with ⟨hx, l₁, l₂, rfl, hl₁⟩
          refine ⟨hx, some y :: l₁, l₂, rfl, ?_⟩
          intro w hw
          rcases List.mem_cons.1 hw with hw | hw
          · subst hw
            rintro ⟨z, hz, hz0⟩
            cases hz
            exact hy hz0
          · exact hl₁ w hw
    · rintro ⟨hx, l₁, l₂, hsplit, hl₁⟩
      cases l₁ with
      | nil =>
        cases hsplit
        simp [_first_positive, if_pos hx]
      | cons w l₁' =>
        rw [List.cons_append] at hsplit
        injection hsplit with hv hrest
        subst hv
        subst hrest
        have hwl : ¬ isPosQ v := hl₁ v (List.mem_cons_self _ _)
        have htail : _first_positive (l₁' ++ some x :: l₂) = some x :=
          ih.2 ⟨hx, l₁', l₂, rfl, fun u hu => hl₁ u (List.mem_cons_of_mem _ hu)⟩
        cases v with
        | none => simpa [_first_positive] using htail
        | some z =>
          have hz : ¬ 0 < z := fun h0 => hwl ⟨z, rfl, h0⟩
          simpa [_first_positive, if_neg hz] using htail

/-- One side's O/H/L/C values after the merge (possibly-missing fields,
as produced by dict lookups). -/
structure OhlcOpt where
  open_ : Option ℚ
  high : Option ℚ
  low : Option ℚ
  close : Option ℚ
deriving DecidableEq

/-- A session-aggregate record (`_session_ohlc[token]`): all four fields
are always present. -/
structure SessionRec where
  open_ : ℚ
  high : ℚ
  low : ℚ
  close : ℚ
deriving DecidableEq

/-- The CE-side O/H/L/C merge of `get_option_chain` (source order:
intraday, quote OHLC, session, [merged open for high/low,] LTP). -/
def ce_merge (intr ohlc : OhlcOpt) (sess : Option SessionRec) (ltp : ℚ) :
    OhlcOpt :=
  let ce_open := _first_positive
    [intr.open_, ohlc.open_, sess.map (·.open_), some ltp]
  { open_ := ce_open
    high := _first_positive
      [intr.high, ohlc.high, sess.map (·.high), ce_open, some ltp]
    low := _first_positive
      [intr.low, ohlc.low, sess.map (·.low), ce_open, some ltp]
    close := _first_positive
      [intr.close, ohlc.close, sess.map (·.close), some ltp] }

/-- The PE-side O/H/L/C merge of `get_option_chain` (source order:
intraday, session, quote OHLC, LTP). -/
def pe_merge (intr ohlc : OhlcOpt) (sess : Option SessionRec) (ltp : ℚ) :
    OhlcOpt :=
  { open_ := _first_positive
      [intr.open_, sess.map (·.open_), ohlc.open_, some ltp]
    high := _first_positive
      [intr.high, sess.map (·.high), ohlc.high, some ltp]
    low := _first_positive
      [intr.low, sess.map (·.low), ohlc.low, some ltp]
    close := _first_positive
      [intr.close, sess.map (·.close), ohlc.close, some ltp] }

/-- Modelled from the claim's words, for comparison with the source:
the precedence the claim asserts for BOTH sides of every strike —
intraday, then quote-reported OHLC, then session aggregate, then LTP,
for each of the four fields. -/
def claimedMerge (intr ohlc : OhlcOpt) (sess : Option SessionRec) (ltp : ℚ) :
    OhlcOpt :=
  { open_ := _first_positive
      [intr.open_, ohlc.open_, sess.map (·.open_), some ltp]
    high := _first_positive
      [intr.high, ohlc.high, sess.map (·.high), some ltp]
    low := _first_positive
      [intr.low, ohlc.low, sess.map (·.low), some ltp]
    close := _first_positive
      [intr.close, ohlc.close, sess.map (·.close), some ltp] }

end KiteService

namespace KiteService

theorem first_positive_pos_mem (l : List (Option ℚ))
    (hx : ∃ v ∈ l, isPosQ v) :
    ∃ x, _first_positive l = some x ∧ 0 < x ∧ some x ∈ l := by
  cases h : _first_positive l with
  | none =>
    exfalso
    rcases hx with ⟨v, hv, hp⟩
    exact (first_positive_eq_none l).1 h v hv hp
  | some x =>
    rcases (first_positive_eq_some l x).1 h with ⟨h0, l₁, l₂, rfl, -⟩
    exact ⟨x, rfl, h0, by simp⟩

/-- C1 counterexample: on the PE side, with no intraday data, a session
high of 5, a quote-reported high of 7, and LTP 1, the claimed precedence
(intraday > quote-OHLC > session > LTP) would give 7, but the code's PE
merge consults the session aggregate before the quote OHLC and gives 5. -/
theorem c1_counterexample_pe_precedence :
    pe_merge ⟨none, none, none, none⟩ ⟨some 7, some 7, some 7, some 7⟩
        (some ⟨5, 5, 5, 5⟩) 1
      ≠ claimedMerge ⟨none, none, none, none⟩ ⟨some 7, some 7, some 7, some 7⟩
        (some ⟨5, 5, 5, 5⟩) 1
    ∧ (pe_merge ⟨none, none, none, none⟩ ⟨some 7, some 7, some 7, some 7⟩
        (some ⟨5, 5, 5, 5⟩) 1).high = some 5
    ∧ (claimedMerge ⟨none, none, none, none⟩ ⟨some 7, some 7, some 7, some 7⟩
        (some ⟨5, 5, 5, 5⟩) 1).high = some 7 := by
  refine ⟨?_, ?_, ?_⟩ <;> decide

/-- C1 (amended): each merged O/H/L/C field is the first strictly positive
source in the order the code actually uses — CE open/close: intraday,
quote OHLC, session, LTP; CE high/low: intraday, quote OHLC, session,
merged CE open, LTP; PE (all four): intraday, session, quote OHLC, LTP.
Whenever any source in a field's chain is strictly positive the merged
field is a strictly positive value drawn from that chain (never
zero/blank), and `_first_positive` picks exactly the first positive
entry. -/
theorem c1_merge_first_positive (intr ohlc : OhlcOpt)
    (sess : Option SessionRec) (ltp : ℚ) :
    ((ce_merge intr ohlc sess ltp).open_
        = _first_positive [intr.open_, ohlc.open_, sess.map (·.open_), some ltp]
      ∧ (ce_merge intr ohlc sess ltp).high
        = _first_positive [intr.high, ohlc.high, sess.map (·.high),
            (ce_merge intr ohlc sess ltp).open_, some ltp]
      ∧ (ce_merge intr ohlc sess ltp).low
        = _first_positive [intr.low, ohlc.low, sess.map (·.low),
            (ce_merge intr ohlc sess ltp).open_, some ltp]
      ∧ (ce_merge intr ohlc sess ltp).close
        = _first_positive [intr.close, ohlc.close, sess.map (·.close), some ltp])
    ∧ ((pe_merge intr ohlc sess ltp).open_
        = _first_positive [intr.open_, sess.map (·.open_), ohlc.open_, some ltp]
      ∧ (pe_merge intr ohlc sess ltp).high
        = _first_positive [intr.high, sess.map (·.high), ohlc.high, some ltp]
      ∧ (pe_merge intr ohlc sess ltp).low
        = _first_positive [intr.low, sess.map (·.low), ohlc.low, some ltp]
      ∧ (pe_merge intr ohlc sess ltp).close
        = _first_positive [intr.close, sess.map (·.close), ohlc.close, some ltp])
    ∧ (∀ l : List (Option ℚ), (∃ v ∈ l, isPosQ v) →
        ∃ x, _first_positive l = some x ∧ 0 < x ∧ some x ∈ l)
    ∧ (∀ (l : List (Option ℚ)) (x : ℚ),
        _first_positive l = some x ↔
          0 < x ∧ ∃ l₁ l₂, l = l₁ ++ some x :: l₂ ∧ ∀ v ∈ l₁, ¬ isPosQ v) := by
  exact ⟨⟨rfl, rfl, rfl, rfl⟩, ⟨rfl, rfl, rfl, rfl⟩,
    first_positive_pos_mem, first_positive_eq_some⟩

/-- C1 witness: the never-blank clause of the amended theorem applied to
the concrete chain `[none, some 2, some 3]`. -/
theorem c1_merge_first_positive_witness :
    ∃ x, _first_positive [none, some 2, some 3] = some x ∧ 0 < x
      ∧ some x ∈ [none, some 2, some 3] :=
  (c1_merge_first_positive ⟨none, none, none, none⟩ ⟨none, none, none, none⟩
      none 0).2.2.1 [none, some 2, some 3] ⟨some 2, by simp, 2, rfl, by norm_num⟩

/-! ## Session OHLC aggregator
(`_reset_session_if_needed` / `_update_session_ohlc`) -/

/-- The session-aggregation state: the tracked trading day and the
per-token OHLC map (`_session_day`, `_session_ohlc`). -/
structure SessionState where
  session_day : Option ℤ
  session_ohlc : ℕ → Option SessionRec

/-- `KiteAPIService._reset_session_if_needed`, with "today" explicit. -/
def _reset_session_if_needed (st : SessionState) (today : ℤ) : SessionState :=
  if st.session_day = some today then st
  else { session_day := some today, session_ohlc := fun _ => none }

/-- `KiteAPIService._update_session_ohlc`, with "today" explicit. -/
def _update_session_ohlc (st : SessionState) (today : ℤ) (token : ℕ)
    (ltp : ℚ) : SessionState :=
  if ltp ≤ 0 then st
  else
    let st1 := _reset_session_if_needed st today
    match st1.session_ohlc token with
    | none =>
        { st1 with session_ohlc := fun t =>
            if t = token then some ⟨ltp, ltp, ltp, ltp⟩ else st1.session_ohlc t }
    | some r =>
        let newRec : SessionRec :=
          { r with
            high := if r.high < ltp then ltp else r.high
            low := if ltp < r.low then ltp else r.low
            close := ltp }
        { st1 with session_ohlc := fun t =>
            if t = token then some newRec else st1.session_ohlc t }

/-- The state at service start: no tracked day, empty map. -/
def initialSessionState : SessionState := ⟨none, fun _ => none⟩

/-- A sequence of observations `(day, token, ltp)` fed through the
aggregator in order. -/
def run_session (obs : List (ℤ × ℕ × ℚ)) : SessionState :=
  obs.foldl (fun st o => _update_session_ohlc st o.1 o.2.1 o.2.2)
    initialSessionState

/-- The per-record invariant: low ≤ high. -/
def sessionInv (st : SessionState) : Prop :=
  ∀ t r, st.session_ohlc t = some r → r.low ≤ r.high

theorem sessionInv_update (st : SessionState) (today : ℤ) (token : ℕ)
    (ltp : ℚ) (h : sessionInv st) :
    sessionInv (_update_session_ohlc st today token ltp) := by
  have h1 : sessionInv (_reset_session_if_needed st today) := by
    unfold _reset_session_if_needed
    by_cases hd : st.session_day = some today
    · rw [if_pos hd]; exact h
    · rw [if_neg hd]; intro t r hr; cases hr
  intro t r hr
  unfold _update_session_ohlc at hr
  split at hr
  · exact h t r hr
  · dsimp only at hr
    split at hr
    · dsimp only at hr
      by_cases ht : t = token
      · rw [if_pos ht] at hr
        cases hr
        exact le_rfl
      · rw [if_neg ht] at hr
        exact h1 t r hr
    · rename_i r0 heq
      dsimp only at hr
      by_cases ht : t = token
      · rw [if_pos ht] at hr
        cases hr
        have h0 : r0.low ≤ r0.high := h1 token r0 heq
        show (if ltp < r0.low then ltp else r0.low)
          ≤ (if r0.high < ltp then ltp else r0.high)
        split <;> split <;> linarith
      · rw [if_neg ht] at hr
        exact h1 t r hr

theorem sessionInv_run (obs : List (ℤ × ℕ × ℚ)) : sessionInv (run_session obs) := by
  suffices h : ∀ st, sessionInv st →
      sessionInv (obs.foldl (fun s o => _update_session_ohlc s o.1 o.2.1 o.2.2) st) by
    apply h
    intro t r hr
    cases hr
  induction obs with
  | nil => intro st hst; exact hst
  | cons o rest ih =>
    intro st hst
    exact ih _ (sessionInv_update st o.1 o.2.1 o.2.2 hst)

end KiteService

namespace KiteService

/-- C7: the session OHLC aggregator.  A non-positive price leaves the
state unchanged; an observation for a day different from the tracked day
clears all per-token state (the observation itself then initialises its
token); the first positive price of a token in a day sets
open = high = low = close = price; a later positive price sets
high = max(high, price), low = min(low, price), close = price and leaves
other tokens untouched; and after any sequence of observations every
stored record satisfies high ≥ low. -/
theorem c7_session_aggregator (st : SessionState) (today : ℤ) (token : ℕ)
    (ltp : ℚ) :
    (ltp ≤ 0 → _update_session_ohlc st today token ltp = st)
    ∧ (0 < ltp → st.session_day ≠ some today →
        (_update_session_ohlc st today token ltp).session_day = some today
        ∧ (_update_session_ohlc st today token ltp).session_ohlc token
            = some ⟨ltp, ltp, ltp, ltp⟩
        ∧ ∀ t, t ≠ token →
            (_update_session_ohlc st today token ltp).session_ohlc t = none)
    ∧ (0 < ltp → st.session_day = some today → st.session_ohlc token = none →
        (_update_session_ohlc st today token ltp).session_ohlc token
            = some ⟨ltp, ltp, ltp, ltp⟩
        ∧ ∀ t, t ≠ token →
            (_update_session_ohlc st today token ltp).session_ohlc t
              = st.session_ohlc t)
    ∧ (∀ r, 0 < ltp → st.session_day = some today →
        st.session_ohlc token = some r →
        (_update_session_ohlc st today token ltp).session_ohlc token
            = some ⟨r.open_, max r.high ltp, min r.low ltp, ltp⟩
        ∧ ∀ t, t ≠ token →
            (_update_session_ohlc st today token ltp).session_ohlc t
              = st.session_ohlc t)
    ∧ (∀ (obs : List (ℤ × ℕ × ℚ)) (t : ℕ) (r : SessionRec),
        (run_session obs).session_ohlc t = some r → r.low ≤ r.high) := by
  refine ⟨fun hl => ?_, fun hp hd => ?_, fun hp hd h0 => ?_,
    fun r hp hd hr => ?_, fun obs t r hr => sessionInv_run obs t r hr⟩
  · unfold _update_session_ohlc
    rw [if_pos hl]
  · have hl : ¬ ltp ≤ 0 := not_le.2 hp
    unfold _update_session_ohlc _reset_session_if_needed
    rw [if_neg hl, if_neg hd]
    dsimp only
    exact ⟨rfl, by rw [if_pos rfl], fun t ht => by rw [if_neg ht]⟩
  · have hl : ¬ ltp ≤ 0 := not_le.2 hp
    unfold _update_session_ohlc _reset_session_if_needed
    rw [if_neg hl, if_pos hd]
    dsimp only
    rw [h0]
    dsimp only
    exact ⟨by rw [if_pos rfl], fun t ht => by rw [if_neg ht]⟩
  · have hl : ¬ ltp ≤ 0 := not_le.2 hp
    have hmax : (if r.high < ltp then ltp else r.high) = max r.high ltp := by
      rcases lt_or_ge r.high ltp with h | h
      · rw [if_pos h, max_eq_right h.le]
      · rw [if_neg (not_lt.2 h), max_eq_left h]
    have hmin : (if ltp < r.low then ltp else r.low) = min r.low ltp := by
      rcases lt_or_ge ltp r.low with h | h
      · rw [if_pos h, min_eq_right h.le]
      · rw [if_neg (not_lt.2 h), min_eq_left h]
    unfold _update_session_ohlc _reset_session_if_needed
    rw [if_neg hl, if_pos hd]
    dsimp only
    rw [hr]
    dsimp only
    constructor
    · rw [if_pos rfl, hmax, hmin]
    · exact fun t ht => by rw [if_neg ht]

/-- C7 witness: the high ≥ low invariant applied to the record produced
by observing prices 3 then 2 for token 5 on day 1. -/
theorem c7_session_aggregator_witness :
    (⟨3, 3, 2, 2⟩ : SessionRec).low ≤ (⟨3, 3, 2, 2⟩ : SessionRec).high :=
  (c7_session_aggregator initialSessionState 0 0 1).2.2.2.2
    [(1, 5, 3), (1, 5, 2)] 5 ⟨3, 3, 2, 2⟩ (by decide)

end KiteService

namespace KiteService

/-! ## Previous-day OHLC fetch (`get_previous_day_option_ohlc`)

The per-token Kite `historical_data` call is modelled by an outcome
oracle.  Time is an explicit `ℚ` parameter (`now`); days are `ℤ`.  The
fetch log records, in order, the tokens for which a network fetch was
attempted.  Disk persistence (`_persist_prevday_record`) only mirrors the
in-memory write and is not modelled. -/

/-- A daily candle returned by the historical-data API. -/
structure Candle where
  date : ℤ
  open_ : ℚ
  high : ℚ
  low : ℚ
  close : ℚ
deriving DecidableEq

/-- Outcome of one `kite.historical_data` call: success, the
rate-limit exception (`'Too many requests'`), or any other exception. -/
inductive FetchOutcome where
  | ok : List Candle → FetchOutcome
  | rateLimited : FetchOutcome
  | err : FetchOutcome
deriving DecidableEq

/-- A `_option_prev_day_cache` record. -/
structure PrevRec where
  for_day : ℤ
  prev_open : ℚ
  prev_high : ℚ
  prev_low : ℚ
  prev_close : ℚ
deriving DecidableEq

/-- The service state touched by `get_previous_day_option_ohlc`:
the in-memory cache and `_rate_limit_prevday_cooldown_until`. -/
structure PrevDayState where
  cache : ℕ → Option PrevRec
  cooldown_until : Option ℚ

/-- Stable insertion by candle date (Python `sorted(..., key=date)`). -/
def insertByDate (c : Candle) : List Candle → List Candle
  | [] => [c]
  | d :: rest => if c.date ≤ d.date then c :: d :: rest else d :: insertByDate c rest

/-- Sort candles ascending by date. -/
def sortByDate : List Candle → List Candle
  | [] => []
  | c :: rest => insertByDate c (sortByDate rest)

/-- Candle selection of `get_previous_day_option_ohlc`: scan the sorted
candles from latest to earliest and take the first one dated exactly
`prev_day`, or failing that the first one strictly earlier — i.e. the
first candle (from the latest) with date ≤ `prev_day`. -/
def selectPrevCandle (candles : List Candle) (prev_day : ℤ) : Option Candle :=
  (sortByDate candles).reverse.find? (fun c => decide (c.date ≤ prev_day))

/-- Result of the per-token loop: final cache and cooldown, the returned
token → record map, and the ordered log of network fetch attempts. -/
structure LoopOut where
  cache : ℕ → Option PrevRec
  cooldown_until : Option ℚ
  result : List (ℕ × PrevRec)
  log : List ℕ

/-- The body of one loop iteration after the cache check: the
`max_fetch` cap, then the fetch attempt with its three outcomes
(store+continue / skip+continue on error / abort+cooldown on
rate-limit).  `k` is the continuation processing the remaining tokens. -/
def fetch_step (now : ℚ) (prev_day : ℤ) (outcome : FetchOutcome)
    (max_fetch : ℕ) (cache : ℕ → Option PrevRec) (t : ℕ) (count : ℕ)
    (k : (ℕ → Option PrevRec) → ℕ → LoopOut) : LoopOut :=
  if max_fetch ≤ count then k cache count
  else
    match outcome with
    | FetchOutcome.ok candles =>
      match selectPrevCandle candles prev_day with
      | some c =>
        let newRec : PrevRec := ⟨prev_day, c.open_, c.high, c.low, c.close⟩
        let cache' := fun u => if u = t then some newRec else cache u
        let R := k cache' (count + 1)
        ⟨R.cache, R.cooldown_until, (t, newRec) :: R.result, t :: R.log⟩
      | none =>
        let R := k cache count
        ⟨R.cache, R.cooldown_until, R.result, t :: R.log⟩
    | FetchOutcome.rateLimited => ⟨cache, some (now + 180), [], [t]⟩
    | FetchOutcome.err =>
      let R := k cache count
      ⟨R.cache, R.cooldown_until, R.result, t :: R.log⟩

/-- The token loop of `get_previous_day_option_ohlc`: serve from cache
when the cached record is for `prev_day`, otherwise attempt a fetch via
`fetch_step`. -/
def fetch_loop (now : ℚ) (prev_day : ℤ) (fetch : ℕ → FetchOutcome)
    (max_fetch : ℕ) :
    (ℕ → Option PrevRec) → Option ℚ → List ℕ → ℕ → LoopOut
  | cache, cd, [], _ => ⟨cache, cd, [], []⟩
  | cache, cd, t :: rest, count =>
    match cache t with
    | some r =>
      if r.for_day = prev_day then
        let R := fetch_loop now prev_day fetch max_fetch cache cd rest count
        ⟨R.cache, R.cooldown_until, (t, r) :: R.result, R.log⟩
      else
        fetch_step now prev_day (fetch t) max_fetch cache t count
          (fun cache' count' =>
            fetch_loop now prev_day fetch max_fetch cache' cd rest count')
    | none =>
        fetch_step now prev_day (fetch t) max_fetch cache t count
          (fun cache' count' =>
            fetch_loop now prev_day fetch max_fetch cache' cd rest count')

/-- `_rate_limit_prevday_cooldown_until and now < ...`. -/
def cooldown_active (cd : Option ℚ) (now : ℚ) : Bool :=
  match cd with
  | some u => decide (now < u)
  | none => false

/-- `KiteAPIService.get_previous_day_option_ohlc`: empty-token early
return, cooldown check, then the per-token loop.  Returns the new state,
the token → record map and the fetch log. -/
def get_previous_day_option_ohlc (st : PrevDayState) (now : ℚ)
    (prev_day : ℤ) (fetch : ℕ → FetchOutcome) (tokens : List ℕ)
    (max_fetch : ℕ) : PrevDayState × List (ℕ × PrevRec) × List ℕ :=
  if tokens.isEmpty then (st, [], [])
  else if cooldown_active st.cooldown_until now then (st, [], [])
  else
    let R := fetch_loop now prev_day fetch max_fetch st.cache
      st.cooldown_until tokens 0
    (⟨R.cache, R.cooldown_until⟩, R.result, R.log)

end KiteService

namespace KiteService

theorem fetch_step_cached_token
    (now : ℚ) (prev_day : ℤ) (outcome : FetchOutcome) (max_fetch : ℕ)
    (cache : ℕ → Option PrevRec) (u : ℕ) (count : ℕ)
    (k : (ℕ → Option PrevRec) → ℕ → LoopOut) (t : ℕ) (r : PrevRec)
    (P : Prop)
    (hct : cache t = some r) (hut : u ≠ t)
    (hk : ∀ cache' count', cache' t = some r →
      (k cache' count').cache t = some r ∧ t ∉ (k cache' count').log)
    (hkP : P → ∀ cache' count', cache' t = some r →
      (t, r) ∈ (k cache' count').result) :
    (fetch_step now prev_day outcome max_fetch cache u count k).cache t = some r
    ∧ t ∉ (fetch_step now prev_day outcome max_fetch cache u count k).log
    ∧ (outcome ≠ FetchOutcome.rateLimited → P →
        (t, r) ∈ (fetch_step now prev_day outcome max_fetch cache u count k).result) := by
  unfold fetch_step
  by_cases hcap : max_fetch ≤ count
  · rw [if_pos hcap]
    exact ⟨(hk cache count hct).1, (hk cache count hct).2,
      fun _ hP => hkP hP cache count hct⟩
  rw [if_neg hcap]
  cases outcome with
  | ok candles =>
    dsimp only
    cases hsel : selectPrevCandle candles prev_day with
    | some c =>
      dsimp only
      have hct' : (if t = u
          then some (⟨prev_day, c.open_, c.high, c.low, c.close⟩ : PrevRec)
          else cache t) = some r := by
        rw [if_neg (fun h => hut h.symm)]
        exact hct
      refine ⟨(hk _ (count + 1) hct').1, ?_, ?_⟩
      · intro hmem
        rcases List.mem_cons.1 hmem with rfl | hmem'
        · exact hut rfl
        · exact (hk _ (count + 1) hct').2 hmem'
      · intro _ hP
        exact List.mem_cons_of_mem _ (hkP hP _ (count + 1) hct')
    | none =>
      dsimp only
      refine ⟨(hk cache count hct).1, ?_, ?_⟩
      · intro hmem
        rcases List.mem_cons.1 hmem with rfl | hmem'
        · exact hut rfl
        · exact (hk cache count hct).2 hmem'
      · intro _ hP
        exact hkP hP cache count hct
  | rateLimited =>
    dsimp only
    refine ⟨hct, ?_, ?_⟩
    · intro hmem
      exact hut (List.mem_singleton.1 hmem).symm
    · intro hout _
      exact absurd rfl hout
  | err =>
    dsimp only
    refine ⟨(hk cache count hct).1, ?_, ?_⟩
    · intro hmem
      rcases List.mem_cons.1 hmem with rfl | hmem'
      · exact hut rfl
      · exact (hk cache count hct).2 hmem'
    · intro _ hP
      exact hkP hP cache count hct

theorem fetch_loop_cached_token (now : ℚ) (prev_day : ℤ)
    (fetch : ℕ → FetchOutcome) (max_fetch : ℕ) (tokens : List ℕ) :
    ∀ (cache : ℕ → Option PrevRec) (cd : Option ℚ) (count : ℕ) (t : ℕ)
      (r : PrevRec), cache t = some r → r.for_day = prev_day →
      (fetch_loop now prev_day fetch max_fetch cache cd tokens count).cache t
          = some r
      ∧ t ∉ (fetch_loop now prev_day fetch max_fetch cache cd tokens count).log
      ∧ ((∀ v, fetch v ≠ FetchOutcome.rateLimited) → t ∈ tokens →
          (t, r) ∈ (fetch_loop now prev_day fetch max_fetch cache cd
            tokens count).result) := by
  induction tokens with
  | nil =>
    intro cache cd count t r hct _
    exact ⟨hct, fun h => (List.not_mem_nil t) h,
      fun _ ht => absurd ht (List.not_mem_nil t)⟩
  | cons u rest ih =>
    intro cache cd count t r hct hday
    cases hcu : cache u with
    | some r' =>
      by_cases hd' : r'.for_day = prev_day
      · have heq := ih cache cd count t r hct hday
        simp only [fetch_loop]
        rw [hcu]
        dsimp only
        rw [if_pos hd']
        refine ⟨heq.1, heq.2.1, ?_⟩
        intro hnr ht
        rcases List.mem_cons.1 ht with rfl | ht'
        · rw [hct] at hcu
          cases hcu
          exact List.mem_cons_self _ _
        · exact List.mem_cons_of_mem _ (heq.2.2 hnr ht')
      · have hut : u ≠ t := by
          rintro rfl
          rw [hct] at hcu
          cases hcu
          exact hd' hday
        simp only [fetch_loop]
        rw [hcu]
        dsimp only
        rw [if_neg hd']
        have hstep := fetch_step_cached_token now prev_day (fetch u) max_fetch
          cache u count
          (fun cache' count' =>
            fetch_loop now prev_day fetch max_fetch cache' cd rest count')
          t r ((∀ v, fetch v ≠ FetchOutcome.rateLimited) ∧ t ∈ rest)
          hct hut
          (fun cache' count' hct' =>
            ⟨(ih cache' cd count' t r hct' hday).1,
             (ih cache' cd count' t r hct' hday).2.1⟩)
          (fun hP cache' count' hct' =>
            (ih cache' cd count' t r hct' hday).2.2 hP.1 hP.2)
        refine ⟨hstep.1, hstep.2.1, ?_⟩
        intro hnr ht
        rcases List.mem_cons.1 ht with rfl | ht'
        · exact absurd rfl hut
        · exact hstep.2.2 (hnr u) ⟨hnr, ht'⟩
    | none =>
      have hut : u ≠ t := by
        rintro rfl
        rw [hct] at hcu
        cases hcu
      simp only [fetch_loop]
      rw [hcu]
      dsimp only
      have hstep := fetch_step_cached_token now prev_day (fetch u) max_fetch
        cache u count
        (fun cache' count' =>
          fetch_loop now prev_day fetch max_fetch cache' cd rest count')
        t r ((∀ v, fetch v ≠ FetchOutcome.rateLimited) ∧ t ∈ rest)
        hct hut
        (fun cache' count' hct' =>
          ⟨(ih cache' cd count' t r hct' hday).1,
           (ih cache' cd count' t r hct' hday).2.1⟩)
        (fun hP cache' count' hct' =>
          (ih cache' cd count' t r hct' hday).2.2 hP.1 hP.2)
      refine ⟨hstep.1, hstep.2.1, ?_⟩
      intro hnr ht
      rcases List.mem_cons.1 ht with rfl | ht'
      · exact absurd rfl hut
      · exact hstep.2.2 (hnr u) ⟨hnr, ht'⟩

end KiteService

namespace KiteService

/-- C3: in the prev-day fetch loop, a token whose historical fetch hits
the rate limit aborts the remaining batch immediately (nothing further is
fetched or returned from this iteration on: the loop output is exactly
the state so far plus that one logged attempt), engages the shared
cooldown `now + 180` — which expires between 120 and 180 seconds from
`now` — and the function still returns a value (the model is total, as a
rate-limit error is caught, never re-raised); any other per-token error
only logs that token's attempt and continues the loop on the remaining
tokens with unchanged state. -/
theorem c3_prevday_rate_limit_abort (now : ℚ) (prev_day : ℤ)
    (fetch : ℕ → FetchOutcome) (max_fetch : ℕ)
    (cache : ℕ → Option PrevRec) (cd : Option ℚ) (t : ℕ) (rest : List ℕ)
    (count : ℕ)
    (hc : ∀ r, cache t = some r → r.for_day ≠ prev_day)
    (hcount : count < max_fetch) :
    (fetch t = FetchOutcome.rateLimited →
      fetch_loop now prev_day fetch max_fetch cache cd (t :: rest) count
        = ⟨cache, some (now + 180), [], [t]⟩
      ∧ ∀ u : ℚ, (some (now + 180) : Option ℚ) = some u →
          now + 120 ≤ u ∧ u ≤ now + 180)
    ∧ (fetch t = FetchOutcome.err →
      fetch_loop now prev_day fetch max_fetch cache cd (t :: rest) count
        = { fetch_loop now prev_day fetch max_fetch cache cd rest count with
            log := t ::
              (fetch_loop now prev_day fetch max_fetch cache cd rest count).log }) := by
  have hred : fetch_loop now prev_day fetch max_fetch cache cd (t :: rest) count
      = fetch_step now prev_day (fetch t) max_fetch cache t count
          (fun cache' count' =>
            fetch_loop now prev_day fetch max_fetch cache' cd rest count') := by
    cases hcu : cache t with
    | some r =>
      simp only [fetch_loop]
      rw [hcu]
      dsimp only
      rw [if_neg (hc r hcu)]
    | none =>
      simp only [fetch_loop]
      rw [hcu]
  constructor
  · intro hrl
    constructor
    · rw [hred]
      unfold fetch_step
      rw [if_neg (not_le.2 hcount), hrl]
    · intro u hu
      cases hu
      constructor <;> linarith
  · intro herr
    rw [hred]
    unfold fetch_step
    rw [if_neg (not_le.2 hcount), herr]

/-- C3 witness: the rate-limit branch of the theorem at a concrete
two-token batch whose first fetch is rate-limited. -/
theorem c3_prevday_rate_limit_abort_witness :
    fetch_loop 0 0 (fun _ => FetchOutcome.rateLimited) 60 (fun _ => none)
        none [1, 2] 0
      = ⟨(fun _ => none), some (0 + 180), [], [1]⟩
    ∧ ∀ u : ℚ, (some ((0 : ℚ) + 180) : Option ℚ) = some u →
        (0 : ℚ) + 120 ≤ u ∧ u ≤ (0 : ℚ) + 180 :=
  (c3_prevday_rate_limit_abort 0 0 (fun _ => FetchOutcome.rateLimited) 60
    (fun _ => none) none 1 [2] 0 (fun r h => by simp at h)
    (by norm_num)).1 rfl

/-- C10: while the prev-day cooldown is active (`now <` the cooldown
timestamp), `get_previous_day_option_ohlc` returns the empty map and
performs no fetch, for every token list and every cache content — in
particular even when every requested token has a cached record for the
required day — because the cooldown check precedes the cache-serving
loop. -/
theorem c10_cooldown_blocks_cached_serving (st : PrevDayState) (now : ℚ)
    (prev_day : ℤ) (fetch : ℕ → FetchOutcome) (tokens : List ℕ)
    (max_fetch : ℕ) (u : ℚ)
    (hcd : st.cooldown_until = some u) (hnow : now < u) :
    get_previous_day_option_ohlc st now prev_day fetch tokens max_fetch
      = (st, [], []) := by
  unfold get_previous_day_option_ohlc
  by_cases he : tokens.isEmpty
  · rw [if_pos he]
  · have hact : cooldown_active st.cooldown_until now = true := by
      unfold cooldown_active
      rw [hcd]
      exact decide_eq_true hnow
    rw [if_neg he, if_pos hact]

/-- C10 witness: a state whose cache holds a record for the required day
at every token, with an active cooldown: the call returns the unchanged
state, an empty map and an empty fetch log. -/
theorem c10_cooldown_blocks_cached_serving_witness :
    get_previous_day_option_ohlc
        ⟨fun _ => some ⟨0, 1, 1, 1, 1⟩, some 10⟩ 5 0
        (fun _ => FetchOutcome.err) [1, 2] 60
      = (⟨fun _ => some ⟨0, 1, 1, 1, 1⟩, some 10⟩, [], []) :=
  c10_cooldown_blocks_cached_serving ⟨fun _ => some ⟨0, 1, 1, 1, 1⟩, some 10⟩
    5 0 (fun _ => FetchOutcome.err) [1, 2] 60 10 rfl (by norm_num)

/-- C9 counterexample: token 1's fetch fails transiently in the first
call (so nothing is stored), and the second call fetches it again: the
two calls together perform two network fetches for token 1, refuting "at
most one historical-data network fetch per token" for two successive
calls on the same day and token set. -/
theorem c9_counterexample_two_fetches :
    (get_previous_day_option_ohlc ⟨fun _ => none, none⟩ 0 0
        (fun _ => FetchOutcome.err) [1] 60).2.2 = [1]
    ∧ (get_previous_day_option_ohlc
        (get_previous_day_option_ohlc ⟨fun _ => none, none⟩ 0 0
          (fun _ => FetchOutcome.err) [1] 60).1 0 0
        (fun _ => FetchOutcome.err) [1] 60).2.2 = [1] :=
  ⟨rfl, rfl⟩

/-- C9 (amended): a token whose record is cached for the required
previous trading day after the first call — in particular every token the
first call stored — is never network-fetched by the second call; and if
additionally the prev-day cooldown is inactive at the second call and no
fetch of the second call hits the rate limit, the token is served from
the in-memory cache into the second call's result.  (A token whose
first-call fetch failed or was capped may be fetched again, and during an
active cooldown nothing is served at all.) -/
theorem c9_cached_token_not_refetched (st : PrevDayState) (now₁ now₂ : ℚ)
    (prev_day : ℤ) (fetch₁ fetch₂ : ℕ → FetchOutcome) (tokens : List ℕ)
    (max_fetch : ℕ) (t : ℕ) (r : PrevRec)
    (hstored : (get_previous_day_option_ohlc st now₁ prev_day fetch₁ tokens
        max_fetch).1.cache t = some r)
    (hday : r.for_day = prev_day) :
    t ∉ (get_previous_day_option_ohlc
        (get_previous_day_option_ohlc st now₁ prev_day fetch₁ tokens
          max_fetch).1 now₂ prev_day fetch₂ tokens max_fetch).2.2
    ∧ (cooldown_active (get_previous_day_option_ohlc st now₁ prev_day fetch₁
          tokens max_fetch).1.cooldown_until now₂ = false →
        (∀ v, fetch₂ v ≠ FetchOutcome.rateLimited) → t ∈ tokens →
        (t, r) ∈ (get_previous_day_option_ohlc
          (get_previous_day_option_ohlc st now₁ prev_day fetch₁ tokens
            max_fetch).1 now₂ prev_day fetch₂ tokens max_fetch).2.1) := by
  generalize hst1 : (get_previous_day_option_ohlc st now₁ prev_day fetch₁
    tokens max_fetch).1 = st₁ at hstored ⊢
  cases tokens with
  | nil =>
    constructor
    · show t ∉ (st₁, ([] : List (ℕ × PrevRec)), ([] : List ℕ)).2.2
      exact List.not_mem_nil t
    · intro _ _ ht
      exact absurd ht (List.not_mem_nil t)
  | cons a as =>
    unfold get_previous_day_option_ohlc
    rw [if_neg (by simp)]
    by_cases hcda : cooldown_active st₁.cooldown_until now₂ = true
    · rw [if_pos hcda]
      constructor
      · exact List.not_mem_nil t
      · intro hcf _ _
        rw [hcf] at hcda
        cases hcda
    · rw [if_neg hcda]
      dsimp only
      have key := fetch_loop_cached_token now₂ prev_day fetch₂ max_fetch
        (a :: as) st₁.cache st₁.cooldown_until 0 t r hstored hday
      exact ⟨key.2.1, fun _ hnr ht => key.2.2 hnr ht⟩

/-- C9 witness: token 1 is stored by the first call (successful fetch of
a candle dated on the previous trading day); the second call does not
fetch it and serves it from cache. -/
theorem c9_cached_token_not_refetched_witness :
    1 ∉ (get_previous_day_option_ohlc
        (get_previous_day_option_ohlc ⟨fun _ => none, none⟩ 0 0
          (fun _ => FetchOutcome.ok [⟨0, 1, 2, 3, 4⟩]) [1] 60).1 0 0
        (fun _ => FetchOutcome.err) [1] 60).2.2
    ∧ (1, (⟨0, 1, 2, 3, 4⟩ : PrevRec)) ∈ (get_previous_day_option_ohlc
        (get_previous_day_option_ohlc ⟨fun _ => none, none⟩ 0 0
          (fun _ => FetchOutcome.ok [⟨0, 1, 2, 3, 4⟩]) [1] 60).1 0 0
        (fun _ => FetchOutcome.err) [1] 60).2.1 :=
  ⟨(c9_cached_token_not_refetched ⟨fun _ => none, none⟩ 0 0 0
      (fun _ => FetchOutcome.ok [⟨0, 1, 2, 3, 4⟩]) (fun _ => FetchOutcome.err)
      [1] 60 1 ⟨0, 1, 2, 3, 4⟩ rfl rfl).1,
   (c9_cached_token_not_refetched ⟨fun _ => none, none⟩ 0 0 0
      (fun _ => FetchOutcome.ok [⟨0, 1, 2, 3, 4⟩]) (fun _ => FetchOutcome.err)
      [1] 60 1 ⟨0, 1, 2, 3, 4⟩ rfl rfl).2 rfl
      (fun v h => FetchOutcome.noConfusion h) (by simp)⟩

end KiteService

namespace KiteService

/-! ## Max pain (`_calculate_max_pain`) -/

/-- One option-chain row as consumed by `_calculate_max_pain`. -/
structure PainRow where
  strike_price : ℚ
  ce_oi : ℚ
  pe_oi : ℚ
deriving DecidableEq

/-- One row's contribution to the pain of a candidate strike:
`ce_oi*(strike - row_strike)` when `strike > row_strike`, plus
`pe_oi*(row_strike - strike)` when `strike < row_strike`. -/
def row_pain (strike : ℚ) (row : PainRow) : ℚ :=
  (if row.strike_price < strike then row.ce_oi * (strike - row.strike_price)
   else 0)
  + (if strike < row.strike_price then row.pe_oi * (row.strike_price - strike)
     else 0)

/-- `total_pain` accumulated over all rows for one candidate strike. -/
def total_pain (rows : List PainRow) (strike : ℚ) : ℚ :=
  (rows.map (row_pain strike)).sum

/-- `KiteAPIService._calculate_max_pain`: Python's `min(..., key=pain)`
over the candidate strikes (first minimum wins); the empty candidate
list raises and the handler returns 0. -/
def _calculate_max_pain (rows : List PainRow) : List ℚ → ℚ
  | [] => 0
  | s :: rest =>
    rest.foldl
      (fun best c => if total_pain rows c < total_pain rows best then c
        else best) s

theorem max_pain_foldl_mem (rows : List PainRow) (rest : List ℚ) :
    ∀ s : ℚ,
      (rest.foldl (fun best c => if total_pain rows c < total_pain rows best
        then c else best) s) = s
      ∨ (rest.foldl (fun best c => if total_pain rows c < total_pain rows best
        then c else best) s) ∈ rest := by
  induction rest with
  | nil => intro s; exact Or.inl rfl
  | cons c cs ih =>
    intro s
    simp only [List.foldl_cons]
    by_cases hc : total_pain rows c < total_pain rows s
    · rw [if_pos hc]
      rcases ih c with h | h
      · right
        rw [h]
        exact List.mem_cons_self c cs
      · exact Or.inr (List.mem_cons_of_mem c h)
    · rw [if_neg hc]
      rcases ih s with h | h
      · exact Or.inl h
      · exact Or.inr (List.mem_cons_of_mem c h)

theorem max_pain_foldl_min (rows : List PainRow) (rest : List ℚ) :
    ∀ s : ℚ,
      total_pain rows (rest.foldl
        (fun best c => if total_pain rows c < total_pain rows best then c
          else best) s) ≤ total_pain rows s
      ∧ ∀ c ∈ rest,
        total_pain rows (rest.foldl
          (fun best c => if total_pain rows c < total_pain rows best then c
            else best) s) ≤ total_pain rows c := by
  induction rest with
  | nil =>
    intro s
    exact ⟨le_refl _, fun c hc => absurd hc (List.not_mem_nil c)⟩
  | cons c cs ih =>
    intro s
    simp only [List.foldl_cons]
    by_cases hc : total_pain rows c < total_pain rows s
    · rw [if_pos hc]
      refine ⟨le_trans (ih c).1 hc.le, ?_⟩
      intro d hd
      rcases List.mem_cons.1 hd with rfl | hd'
      · exact (ih d).1
      · exact (ih c).2 d hd'
    · rw [if_neg hc]
      refine ⟨(ih s).1, ?_⟩
      intro d hd
      rcases List.mem_cons.1 hd with rfl | hd'
      · exact le_trans (ih s).1 (not_lt.1 hc)
      · exact (ih s).2 d hd'

theorem list_sum_pos_of_mem_pos (l : List ℚ) (h0 : ∀ x ∈ l, 0 ≤ x)
    (hx : ∃ x ∈ l, 0 < x) : 0 < l.sum := by
  induction l with
  | nil =>
    rcases hx with ⟨x, hx, -⟩
    exact absurd hx (List.not_mem_nil x)
  | cons a t ih =>
    rw [List.sum_cons]
    have ht : 0 ≤ t.sum :=
      List.sum_nonneg (fun x hxt => h0 x (List.mem_cons_of_mem a hxt))
    rcases hx with ⟨x, hxm, hxp⟩
    rcases List.mem_cons.1 hxm with rfl | hxm'
    · linarith
    · have := ih (fun y hy => h0 y (List.mem_cons_of_mem a hy)) ⟨x, hxm', hxp⟩
      have ha : 0 ≤ a := h0 a (List.mem_cons_self a t)
      linarith

end KiteService

namespace KiteService

theorem row_pain_nonneg (strike : ℚ) (row : PainRow)
    (h1 : 0 ≤ row.ce_oi) (h2 : 0 ≤ row.pe_oi) : 0 ≤ row_pain strike row := by
  unfold row_pain
  have ha : 0 ≤ (if row.strike_price < strike
      then row.ce_oi * (strike - row.strike_price) else 0) := by
    split
    · rename_i h
      exact mul_nonneg h1 (by linarith)
    · exact le_refl 0
  have hb : 0 ≤ (if strike < row.strike_price
      then row.pe_oi * (row.strike_price - strike) else 0) := by
    split
    · rename_i h
      exact mul_nonneg h2 (by linarith)
    · exact le_refl 0
  linarith

/-- C6: `_calculate_max_pain` returns a strike from the candidate list
minimizing the OI-weighted pain sum over the rows; and when all call and
put open interest is concentrated at a single strike (positive on both
sides there, zero elsewhere, no negative OI), the returned strike is that
strike. -/
theorem c6_max_pain_minimizer (rows : List PainRow) (strikes : List ℚ)
    (hne : strikes ≠ []) :
    (_calculate_max_pain rows strikes ∈ strikes
      ∧ ∀ c ∈ strikes,
        total_pain rows (_calculate_max_pain rows strikes) ≤ total_pain rows c)
    ∧ ∀ s0 ∈ strikes,
      (∀ row ∈ rows, 0 ≤ row.ce_oi ∧ 0 ≤ row.pe_oi) →
      (∀ row ∈ rows, row.strike_price ≠ s0 → row.ce_oi = 0 ∧ row.pe_oi = 0) →
      (∃ row ∈ rows, row.strike_price = s0 ∧ 0 < row.ce_oi ∧ 0 < row.pe_oi) →
      _calculate_max_pain rows strikes = s0 := by
  cases strikes with
  | nil => exact absurd rfl hne
  | cons s rest =>
    have hmem : _calculate_max_pain rows (s :: rest) ∈ s :: rest := by
      rcases max_pain_foldl_mem rows rest s with h | h
      · rw [_calculate_max_pain, h]
        exact List.mem_cons_self s rest
      · exact List.mem_cons_of_mem s h
    have hmin : ∀ c ∈ s :: rest,
        total_pain rows (_calculate_max_pain rows (s :: rest))
          ≤ total_pain rows c := by
      intro c hc
      rcases List.mem_cons.1 hc with rfl | hc'
      · exact (max_pain_foldl_min rows rest c).1
      · exact (max_pain_foldl_min rows rest s).2 c hc'
    refine ⟨⟨hmem, hmin⟩, ?_⟩
    intro s0 hs0 hnn hz hex
    have hzero : total_pain rows s0 = 0 := by
      apply List.sum_eq_zero
      intro x hx
      rcases List.mem_map.1 hx with ⟨row, hrow, rfl⟩
      by_cases hsp : row.strike_price = s0
      · simp [row_pain, hsp]
      · obtain ⟨h1, h2⟩ := hz row hrow hsp
        simp [row_pain, h1, h2]
    have hpos : ∀ c, c ≠ s0 → 0 < total_pain rows c := by
      intro c hcs
      apply list_sum_pos_of_mem_pos
      · intro x hx
        rcases List.mem_map.1 hx with ⟨row, hrow, rfl⟩
        exact row_pain_nonneg c row (hnn row hrow).1 (hnn row hrow).2
      · rcases hex with ⟨r0, hr0, hr0s, hce, hpe⟩
        refine ⟨row_pain c r0, List.mem_map.2 ⟨r0, hr0, rfl⟩, ?_⟩
        rcases lt_or_gt_of_ne hcs with hlt | hgt
        · rw [row_pain, if_neg (by rw [hr0s]; exact not_lt.2 hlt.le),
            if_pos (by rw [hr0s]; exact hlt)]
          rw [hr0s]
          have := mul_pos hpe (sub_pos.2 hlt)
          linarith
        · rw [row_pain, if_pos (by rw [hr0s]; exact hgt),
            if_neg (by rw [hr0s]; exact not_lt.2 hgt.le)]
          rw [hr0s]
          have := mul_pos hce (sub_pos.2 hgt)
          linarith
    by_contra hne2
    have h1 := hmin s0 hs0
    have h2 := hpos _ hne2
    rw [hzero] at h1
    linarith

/-- C6 witness: strikes [1, 2, 3] with all OI concentrated at strike 2
(ce = 3, pe = 4): the max-pain strike is 2, is a member of the candidate
list, and minimizes the pain. -/
theorem c6_max_pain_minimizer_witness :
    _calculate_max_pain [⟨1, 0, 0⟩, ⟨2, 3, 4⟩, ⟨3, 0, 0⟩] [1, 2, 3] = 2
    ∧ _calculate_max_pain [⟨1, 0, 0⟩, ⟨2, 3, 4⟩, ⟨3, 0, 0⟩] [1, 2, 3]
        ∈ [(1 : ℚ), 2, 3] :=
  ⟨(c6_max_pain_minimizer [⟨1, 0, 0⟩, ⟨2, 3, 4⟩, ⟨3, 0, 0⟩] [1, 2, 3]
      (by simp)).2 2 (by norm_num)
      (by intro row hrow; fin_cases hrow <;> norm_num)
      (by intro row hrow; fin_cases hrow <;> simp)
      ⟨⟨2, 3, 4⟩, by simp, rfl, by norm_num, by norm_num⟩,
   (c6_max_pain_minimizer [⟨1, 0, 0⟩, ⟨2, 3, 4⟩, ⟨3, 0, 0⟩] [1, 2, 3]
      (by simp)).1.1⟩

end KiteService

namespace KiteService

/-! ## Previous trading day (`_get_previous_trading_day`)

Dates are proleptic-Gregorian ordinals (`date.toordinal()`): ordinal 1 is
0001-01-01, a Monday, so Python's `weekday()` is `(ordinal - 1) % 7`
(Monday = 0 … Sunday = 6).  The `while` loop runs at most twice (Sunday →
Saturday → Friday); fuel 7 is more than enough and the theorem shows the
guard is false at the returned day. -/

/-- Python's `date.weekday()` on an ordinal: Monday = 0 … Sunday = 6. -/
def weekday (d : ℤ) : ℤ := (d - 1) % 7

/-- The weekend rollback loop: `while d.weekday() >= 5: d -= 1`. -/
def skip_weekend : ℕ → ℤ → ℤ
  | 0, d => d
  | n + 1, d => if 5 ≤ weekday d then skip_weekend n (d - 1) else d

/-- `KiteAPIService._get_previous_trading_day`: subtract one day, then
roll back while the day is Saturday or Sunday. -/
def _get_previous_trading_day (today : ℤ) : ℤ :=
  skip_weekend 7 (today - 1)

/-- C8: the previous-trading-day computation subtracts one day and rolls
back through weekend days only: its result is never a Saturday or Sunday
(weekday < 5); invoked on a Monday it returns the prior Friday
(today - 3); and when the previous calendar day is already a weekday it
is returned as is. -/
theorem c8_previous_trading_day (today : ℤ) :
    (0 ≤ weekday (_get_previous_trading_day today)
      ∧ weekday (_get_previous_trading_day today) < 5)
    ∧ (weekday today = 0 → _get_previous_trading_day today = today - 3)
    ∧ (weekday (today - 1) < 5 →
        _get_previous_trading_day today = today - 1) := by
  have e1 : _get_previous_trading_day today
      = if 5 ≤ weekday (today - 1) then skip_weekend 6 (today - 1 - 1)
        else today - 1 := rfl
  by_cases h1 : 5 ≤ weekday (today - 1)
  · have e2 : skip_weekend 6 (today - 1 - 1)
        = if 5 ≤ weekday (today - 1 - 1)
          then skip_weekend 5 (today - 1 - 1 - 1) else today - 1 - 1 := rfl
    by_cases h2 : 5 ≤ weekday (today - 1 - 1)
    · have h3 : ¬ 5 ≤ weekday (today - 1 - 1 - 1) := by
        unfold weekday at h1 h2 ⊢
        omega
      have e3 : skip_weekend 5 (today - 1 - 1 - 1) = today - 1 - 1 - 1 := by
        show (if 5 ≤ weekday (today - 1 - 1 - 1)
          then skip_weekend 4 (today - 1 - 1 - 1 - 1)
          else today - 1 - 1 - 1) = today - 1 - 1 - 1
        rw [if_neg h3]
      rw [e1, if_pos h1, e2, if_pos h2, e3]
      refine ⟨?_, ?_, ?_⟩
      · unfold weekday at h1 h2 ⊢
        omega
      · intro h0
        omega
      · intro hlt
        omega
    · rw [e1, if_pos h1, e2, if_neg h2]
      refine ⟨?_, ?_, ?_⟩
      · unfold weekday at h1 h2 ⊢
        omega
      · intro h0
        unfold weekday at h0 h1 h2
        omega
      · intro hlt
        unfold weekday at hlt h1
        omega
  · rw [e1, if_neg h1]
    refine ⟨?_, ?_, ?_⟩
    · unfold weekday at h1 ⊢
      omega
    · intro h0
      unfold weekday at h0 h1
      omega
    · intro hlt
      rfl

/-- C8 witness: ordinal 8 (0001-01-08) is a Monday; its previous trading
day is ordinal 5, the prior Friday, and it is a weekday. -/
theorem c8_previous_trading_day_witness :
    (0 ≤ weekday (_get_previous_trading_day 8)
      ∧ weekday (_get_previous_trading_day 8) < 5)
    ∧ _get_previous_trading_day 8 = 8 - 3 :=
  ⟨(c8_previous_trading_day 8).1, (c8_previous_trading_day 8).2.1 (by decide)⟩

end KiteService

namespace KiteService

/-! ## Quote batching (`get_option_chain`, lines 1283-1308)

The loop slices the token list into batches of 400, calls `kite.quote`
per batch, retries a rate-limited batch exactly once after a short sleep,
drops the batch on any other failure or on a failed retry, and never
touches the prev-day or intraday cooldown timestamps.  `kite.quote` is
modelled by an oracle indexed by batch number and attempt number; a
successful call yields a token → last-price map fragment. -/

/-- Outcome of one `kite.quote(batch)` call. -/
inductive QuoteOutcome where
  | ok : List (ℕ × ℚ) → QuoteOutcome
  | rateLimited : QuoteOutcome
  | err : QuoteOutcome
deriving DecidableEq

/-- The fixed quote batch size of the source. -/
def batch_size : ℕ := 400

/-- `range(0, len(tokens), 400)` slicing, by structural recursion on a
fuel that starts at the list length (each step consumes at least the head
element, so the fuel never runs out). -/
def chunkListAux : ℕ → List ℕ → List (List ℕ)
  | _, [] => []
  | 0, _ :: _ => []
  | fuel + 1, t :: rest =>
    (t :: rest).take batch_size :: chunkListAux fuel (rest.drop (batch_size - 1))

/-- `range(0, len(tokens), 400)` slicing. -/
def chunkList (l : List ℕ) : List (List ℕ) := chunkListAux l.length l

/-- The batch loop: first attempt; on a rate-limit error one retry; on
any other error (or a failed retry) drop the batch and continue.
Returns the accumulated quote map and the log of `(batch, attempt)`
network calls made. -/
def quote_batches (fetchQ : ℕ → ℕ → QuoteOutcome) :
    List (List ℕ) → ℕ → List (ℕ × ℚ) × List (ℕ × ℕ)
  | [], _ => ([], [])
  | _ :: bs, i =>
    match fetchQ i 0 with
    | QuoteOutcome.ok m =>
      let R := quote_batches fetchQ bs (i + 1)
      (m ++ R.1, (i, 0) :: R.2)
    | QuoteOutcome.rateLimited =>
      match fetchQ i 1 with
      | QuoteOutcome.ok m =>
        let R := quote_batches fetchQ bs (i + 1)
        (m ++ R.1, (i, 0) :: (i, 1) :: R.2)
      | _ =>
        let R := quote_batches fetchQ bs (i + 1)
        (R.1, (i, 0) :: (i, 1) :: R.2)
    | QuoteOutcome.err =>
      let R := quote_batches fetchQ bs (i + 1)
      (R.1, (i, 0) :: R.2)

/-- The quote fetch of `get_option_chain` over a token list. -/
def fetch_quotes_batched (fetchQ : ℕ → ℕ → QuoteOutcome)
    (tokens : List ℕ) : List (ℕ × ℚ) × List (ℕ × ℕ) :=
  quote_batches fetchQ (chunkList tokens) 0

/-- The quote phase as a transformer of the two cooldown timestamps
(`_rate_limit_prevday_cooldown_until`, `_rate_limit_intraday_cooldown_until`):
the quote loop reads neither and writes neither. -/
def quote_phase (prevday_cd intraday_cd : Option ℚ)
    (fetchQ : ℕ → ℕ → QuoteOutcome) (tokens : List ℕ) :
    (Option ℚ × Option ℚ) × List (ℕ × ℚ) × List (ℕ × ℕ) :=
  ((prevday_cd, intraday_cd), fetch_quotes_batched fetchQ tokens)

/-- What one batch contributes to the quote map. -/
def batch_result (fetchQ : ℕ → ℕ → QuoteOutcome) (i : ℕ) : List (ℕ × ℚ) :=
  match fetchQ i 0 with
  | QuoteOutcome.ok m => m
  | QuoteOutcome.rateLimited =>
    match fetchQ i 1 with
    | QuoteOutcome.ok m => m
    | _ => []
  | QuoteOutcome.err => []

/-- The attempts one batch generates. -/
def batch_attempts (fetchQ : ℕ → ℕ → QuoteOutcome) (i : ℕ) :
    List (ℕ × ℕ) :=
  match fetchQ i 0 with
  | QuoteOutcome.rateLimited => [(i, 0), (i, 1)]
  | _ => [(i, 0)]

theorem quote_batches_eq (fetchQ : ℕ → ℕ → QuoteOutcome)
    (bs : List (List ℕ)) : ∀ i : ℕ,
    quote_batches fetchQ bs i
      = (((List.range bs.length).map
            (fun j => batch_result fetchQ (i + j))).flatten,
         ((List.range bs.length).map
            (fun j => batch_attempts fetchQ (i + j))).flatten) := by
  induction bs with
  | nil => intro i; rfl
  | cons b bs ih =>
    intro i
    have hrange : List.range (bs.length + 1)
        = 0 :: (List.range bs.length).map Nat.succ :=
      List.range_succ_eq_map bs.length
    have hfr : ((fun j => batch_result fetchQ (i + j)) ∘ Nat.succ)
        = (fun j => batch_result fetchQ (i + 1 + j)) := by
      funext j
      simp only [Function.comp_apply]
      congr 1
      omega
    have hfa : ((fun j => batch_attempts fetchQ (i + j)) ∘ Nat.succ)
        = (fun j => batch_attempts fetchQ (i + 1 + j)) := by
      funext j
      simp only [Function.comp_apply]
      congr 1
      omega
    have hres : ((List.range (b :: bs).length).map
          (fun j => batch_result fetchQ (i + j))).flatten
        = batch_result fetchQ i
          ++ ((List.range bs.length).map
              (fun j => batch_result fetchQ (i + 1 + j))).flatten := by
      rw [List.length_cons, hrange]
      simp only [List.map_cons, List.map_map, List.flatten_cons, Nat.add_zero]
      rw [hfr]
    have hatt : ((List.range (b :: bs).length).map
          (fun j => batch_attempts fetchQ (i + j))).flatten
        = batch_attempts fetchQ i
          ++ ((List.range bs.length).map
              (fun j => batch_attempts fetchQ (i + 1 + j))).flatten := by
      rw [List.length_cons, hrange]
      simp only [List.map_cons, List.map_map, List.flatten_cons, Nat.add_zero]
      rw [hfa]
    rw [hres, hatt]
    simp only [quote_batches]
    cases h0 : fetchQ i 0 with
    | ok m =>
      rw [ih (i + 1)]
      have hbr : batch_result fetchQ i = m := by
        unfold batch_result
        rw [h0]
      have hba : batch_attempts fetchQ i = [(i, 0)] := by
        unfold batch_attempts
        rw [h0]
      rw [hbr, hba]
      rfl
    | rateLimited =>
      have hba : batch_attempts fetchQ i = [(i, 0), (i, 1)] := by
        unfold batch_attempts
        rw [h0]
      cases h1 : fetchQ i 1 with
      | ok m =>
        rw [ih (i + 1)]
        have hbr : batch_result fetchQ i = m := by
          unfold batch_result
          rw [h0, h1]
        rw [hbr, hba]
        rfl
      | rateLimited =>
        rw [ih (i + 1)]
        have hbr : batch_result fetchQ i = [] := by
          unfold batch_result
          rw [h0, h1]
        rw [hbr, hba]
        rfl
      | err =>
        rw [ih (i + 1)]
        have hbr : batch_result fetchQ i = [] := by
          unfold batch_result
          rw [h0, h1]
        rw [hbr, hba]
        rfl
    | err =>
      rw [ih (i + 1)]
      have hbr : batch_result fetchQ i = [] := by
        unfold batch_result
        rw [h0]
      have hba : batch_attempts fetchQ i = [(i, 0)] := by
        unfold batch_attempts
        rw [h0]
      rw [hbr, hba]
      rfl

end KiteService

namespace KiteService

theorem mem_batch_attempts (fetchQ : ℕ → ℕ → QuoteOutcome) (k i j : ℕ) :
    (i, j) ∈ batch_attempts fetchQ k ↔
      (i = k ∧ (j = 0 ∨ (j = 1 ∧ fetchQ k 0 = QuoteOutcome.rateLimited))) := by
  by_cases h : fetchQ k 0 = QuoteOutcome.rateLimited
  · have hb : batch_attempts fetchQ k = [(k, 0), (k, 1)] := by
      unfold batch_attempts
      rw [h]
    rw [hb]
    constructor
    · intro hm
      rcases List.mem_cons.1 hm with he | hm2
      · injection he with h1 h2
        exact ⟨h1, Or.inl h2⟩
      · have he2 := List.mem_singleton.1 hm2
        injection he2 with h1 h2
        exact ⟨h1, Or.inr ⟨h2, h⟩⟩
    · rintro ⟨rfl, hj⟩
      rcases hj with rfl | ⟨rfl, -⟩
      · exact List.mem_cons_self _ _
      · exact List.mem_cons_of_mem _ (List.mem_singleton.2 rfl)
  · have hb : batch_attempts fetchQ k = [(k, 0)] := by
      unfold batch_attempts
      cases hf : fetchQ k 0 with
      | ok m => rfl
      | rateLimited => exact absurd hf h
      | err => rfl
    rw [hb]
    constructor
    · intro hm
      have he := List.mem_singleton.1 hm
      injection he with h1 h2
      exact ⟨h1, Or.inl h2⟩
    · rintro ⟨rfl, hj⟩
      rcases hj with rfl | ⟨rfl, hrl⟩
      · exact List.mem_singleton.2 rfl
      · exact absurd hrl h

/-- C4: the quote batching loop attempts every batch once (a failure of
one batch never stops the loop), makes a second attempt for a batch
exactly when its first attempt was rate-limited and never a third (retry
exactly once); the returned quote map is the concatenation of the
independent per-batch contributions, a batch failing twice (or failing
with a non-rate-limit error) contributing nothing (omitted tokens,
partial success, no exception — the model is total); and the quote phase
leaves both the prev-day and the intraday cooldown timestamps unchanged.
In particular a rate-limited first batch whose retry succeeds
contributes its full map and engages no cooldown. -/
theorem c4_quote_batches_retry_once (prevday_cd intraday_cd : Option ℚ)
    (fetchQ : ℕ → ℕ → QuoteOutcome) (tokens : List ℕ) :
    (quote_phase prevday_cd intraday_cd fetchQ tokens).1
        = (prevday_cd, intraday_cd)
    ∧ (∀ i j, (i, j) ∈ (fetch_quotes_batched fetchQ tokens).2 ↔
        (i < (chunkList tokens).length ∧
          (j = 0 ∨ (j = 1 ∧ fetchQ i 0 = QuoteOutcome.rateLimited))))
    ∧ (fetch_quotes_batched fetchQ tokens).1
        = ((List.range (chunkList tokens).length).map
            (batch_result fetchQ)).flatten := by
  have hz1 : (fun j => batch_result fetchQ (0 + j)) = batch_result fetchQ := by
    funext j
    rw [Nat.zero_add]
  have hz2 : (fun j => batch_attempts fetchQ (0 + j))
      = batch_attempts fetchQ := by
    funext j
    rw [Nat.zero_add]
  refine ⟨rfl, ?_, ?_⟩
  · intro i j
    unfold fetch_quotes_batched
    rw [quote_batches_eq fetchQ (chunkList tokens) 0, hz2]
    dsimp only
    constructor
    · intro hmem
      rcases List.mem_flatten.1 hmem with ⟨l, hl, hml⟩
      rcases List.mem_map.1 hl with ⟨k, hk, rfl⟩
      rcases (mem_batch_attempts fetchQ k i j).1 hml with ⟨rfl, hj⟩
      exact ⟨List.mem_range.1 hk, hj⟩
    · rintro ⟨hi, hj⟩
      exact List.mem_flatten.2 ⟨batch_attempts fetchQ i,
        List.mem_map.2 ⟨i, List.mem_range.2 hi, rfl⟩,
        (mem_batch_attempts fetchQ i i j).2 ⟨rfl, hj⟩⟩
  · unfold fetch_quotes_batched
    rw [quote_batches_eq fetchQ (chunkList tokens) 0, hz1]

/-- C4 witness: a single three-token batch whose first attempt is
rate-limited and whose retry succeeds: the retry attempt (batch 0,
attempt 1) is in the call log, the full map is returned, and the
cooldowns are untouched. -/
theorem c4_quote_batches_retry_once_witness :
    (quote_phase (some 1) none
        (fun _ a => if a = 0 then QuoteOutcome.rateLimited
          else QuoteOutcome.ok [(1, 5)]) [1, 2, 3]).1 = (some 1, none)
    ∧ (0, 1) ∈ (fetch_quotes_batched
        (fun _ a => if a = 0 then QuoteOutcome.rateLimited
          else QuoteOutcome.ok [(1, 5)]) [1, 2, 3]).2 :=
  ⟨(c4_quote_batches_retry_once (some 1) none
      (fun _ a => if a = 0 then QuoteOutcome.rateLimited
        else QuoteOutcome.ok [(1, 5)]) [1, 2, 3]).1,
   ((c4_quote_batches_retry_once (some 1) none
      (fun _ a => if a = 0 then QuoteOutcome.rateLimited
        else QuoteOutcome.ok [(1, 5)]) [1, 2, 3]).2.1 0 1).mpr
      ⟨by decide, Or.inr ⟨rfl, rfl⟩⟩⟩

end KiteService
